import Mathlib

/-!
Verification of the aggiorna-dj updater (src/main.py) and packaging utility
(src/zip.py) against its specification.

Conventions of the shallow embedding:
  * A Python dict that is iterated in insertion order (the manifest, the
    packaging configuration) is modelled as an association list whose keys
    are unique in any run of the real program.
  * Python strings are Lean Strings; where character-level parsing matters
    the model works on the underlying character list.
  * The builtin int() conversion is modelled by pyInt? (stripping of the
    CPython whitespace table, one optional sign, ASCII decimal digits with
    the underscore grouping of PEP 515), and str() of a natural number by
    natRepr (decimal rendering), matching the f-string rendering used by
    create_choices. CPython additionally accepts non-ASCII Unicode decimal
    digits, which are outside this model: pyInt? accepts a subset of what
    int() accepts, and no theorem below concludes anything from pyInt?
    rejecting an input, other than at concrete strings on which the model
    and CPython agree.
  * The filesystem is a tree of named nodes (files with opaque string
    content, directories with an ordered entry list); paths are lists of
    components, rooted at the process working directory.
-/

namespace AggiornaDj

/-- Decimal digit characters, as produced by Python str() of an int. -/
def dChar (d : Nat) : Char :=
  match d with
  | 0 => '0' | 1 => '1' | 2 => '2' | 3 => '3' | 4 => '4'
  | 5 => '5' | 6 => '6' | 7 => '7' | 8 => '8' | _ => '9'

/-- Numeric value of a digit character (inverse of dChar on digits). -/
def dVal (c : Char) : Nat := c.toNat - 48

/-- Little-endian decimal digits of a natural number. -/
def natDigitsLE (n : Nat) : List Char :=
  if h : n < 10 then [dChar n]
  else dChar (n % 10) :: natDigitsLE (n / 10)
decreasing_by exact Nat.div_lt_self (by omega) (by omega)

/-- Decimal rendering of a natural number, modelling Python str(i). -/
def natRepr (n : Nat) : String := String.mk (natDigitsLE n).reverse

/-- Tail of a Python integer-literal digit part after its leading digit:
digits with single underscores allowed between digits (PEP 515); an
underscore must be followed by a digit, so it can be neither trailing nor
doubled. -/
def digitsTailOk : List Char → Bool
  | [] => true
  | [c] => c.isDigit
  | c :: c2 :: rest =>
    if c = '_' then c2.isDigit && digitsTailOk (c2 :: rest)
    else c.isDigit && digitsTailOk (c2 :: rest)

/-- A Python integer-literal digit part: non-empty, starting with a digit,
underscores only between digits. -/
def pyDigitsOk (l : List Char) : Bool :=
  match l with
  | [] => false
  | c :: rest => c.isDigit && digitsTailOk rest

/-- Parse of the digit part of a Python integer literal: grouping
underscores are dropped before the digits are accumulated. -/
def parseDigits (l : List Char) : Option Nat :=
  if pyDigitsOk l then
    some ((l.filter (fun c => c != '_')).foldl (fun a c => 10 * a + dVal c) 0)
  else none

/-- Whitespace characters stripped by Python int(): the CPython whitespace
table (the one behind str.strip), i.e. the ASCII range 0x09-0x0D, the
separator controls 0x1C-0x1F, space, NEL 0x85, no-break space 0xA0, Ogham
space 0x1680, the general punctuation spaces 0x2000-0x200A, the line and
paragraph separators 0x2028-0x2029, 0x202F, 0x205F and the ideographic
space 0x3000. -/
def isWS (c : Char) : Bool :=
  (0x09 ≤ c.toNat && c.toNat ≤ 0x0D) || (0x1C ≤ c.toNat && c.toNat ≤ 0x1F) ||
  c.toNat = 0x20 || c.toNat = 0x85 || c.toNat = 0xA0 || c.toNat = 0x1680 ||
  (0x2000 ≤ c.toNat && c.toNat ≤ 0x200A) || c.toNat = 0x2028 ||
  c.toNat = 0x2029 || c.toNat = 0x202F || c.toNat = 0x205F ||
  c.toNat = 0x3000

/-- Strip leading and trailing whitespace from a character list. -/
def stripWS (l : List Char) : List Char :=
  ((l.dropWhile isWS).reverse.dropWhile isWS).reverse

/-- Model of the Python int() builtin on a string (as a character list):
strip whitespace, one optional sign, then an underscore-grouped digit
part; None models a ValueError. CPython also accepts non-ASCII Unicode
decimal digits, which this model does not: every input pyInt? accepts is
accepted by int() with the same value, while an input pyInt? rejects is
only known to raise when it contains no character int() could treat as a
digit (as at the concrete strings used below). -/
def pyInt? (l : List Char) : Option Int :=
  let t := stripWS l
  if t.head? = some '+' then (parseDigits t.tail).map Int.ofNat
  else if t.head? = some '-' then (parseDigits t.tail).map (fun k => -(k : Int))
  else (parseDigits t).map Int.ofNat

/-- Python list indexing, which accepts negative indices counting from the
end; None models an IndexError. -/
def pyListGet {α : Type} (l : List α) (i : Int) : Option α :=
  if 0 ≤ i then l[i.toNat]?
  else if 0 ≤ i + l.length then l[(i + l.length).toNat]?
  else none

/-- A manifest entry from freaky.json: the zip key and the optional
da-tenere preserve list (src/main.py process_selection reads both with
dict.get, so each may be absent). -/
structure CompEntry where
  zip : Option String
  daTenere : Option (List String)
deriving DecidableEq

/-- The manifest: ordered mapping component name to entry. -/
abbrev Manifest := List (String × CompEntry)

/-- The display-choice string rendered by create_choices for 1-based index
n and a component name, from the f-string in src/main.py line 63. -/
def choiceString (n : Nat) (name : String) : String :=
  natRepr n ++ ") " ++ name

/-- The filtering loop of create_choices (src/main.py lines 57-67) over the
enumerated manifest key list. -/
def choiceLoop (mode : String) (localList : List String) :
    List (Nat × String) → List String
  | [] => []
  | (i, name) :: rest =>
    let isLocal := localList.contains name
    if mode == "update" && isLocal then
      choiceString (i + 1) name :: choiceLoop mode localList rest
    else if mode == "download" && !isLocal then
      choiceString (i + 1) name :: choiceLoop mode localList rest
    else
      choiceLoop mode localList rest

/-- create_choices (src/main.py lines 44-69): builds index-prefixed display
strings for the manifest entries selected by the mode. -/
def create_choices (componentList : Manifest) (localList : List String)
    (mode : String) : List String :=
  choiceLoop mode localList (componentList.map Prod.fst).enum

/-- Python exceptions distinguished by process_selection and its caller. -/
inductive PyErr where
  | valueError (msg : String)
  | indexError
deriving DecidableEq

/-- The substring before the first close-paren, i.e. Python
s.split(close-paren)[0], as a character list. -/
def firstPart (s : String) : List Char :=
  s.data.takeWhile (fun c => c != ')')

/-- process_selection (src/main.py lines 87-106): parses the numeric prefix
of a display-choice string, recovers the manifest key at that 0-based
position, and returns (zip value, key, da-tenere value defaulting to []). -/
def process_selection (selectedChoiceString : String)
    (availableData : Manifest) :
    Except PyErr (Option String × String × List String) :=
  match pyInt? (firstPart selectedChoiceString) with
  | none => Except.error (PyErr.valueError "Selezione non valida per analisi indice.")
  | some n =>
    let sceltaIndex : Int := n - 1
    match pyListGet (availableData.map Prod.fst) sceltaIndex with
    | none => Except.error PyErr.indexError
    | some keyName =>
      let entry := (availableData.lookup keyName).getD ⟨none, none⟩
      Except.ok (entry.zip, keyName, entry.daTenere.getD [])

/-! Facts about the decimal rendering and the int() model. -/

theorem dChar_spec (d : Nat) :
    (dChar d).isDigit = true ∧ (dChar d != ')') = true ∧
    isWS (dChar d) = false ∧ (dChar d == '+') = false ∧
    (dChar d == '-') = false ∧ (dChar d != '_') = true := by
  rcases d with _|_|_|_|_|_|_|_|_|d <;> exact ⟨rfl, rfl, rfl, rfl, rfl, rfl⟩

theorem dVal_dChar {d : Nat} (h : d < 10) : dVal (dChar d) = d := by
  rcases d with _|_|_|_|_|_|_|_|_|_|d <;> first | rfl | omega

theorem natDigitsLE_ne_nil (n : Nat) : natDigitsLE n ≠ [] := by
  rw [natDigitsLE]
  split <;> simp

theorem natDigitsLE_mem {n : Nat} {c : Char} (h : c ∈ natDigitsLE n) :
    ∃ k, k < 10 ∧ c = dChar k := by
  induction n using Nat.strong_induction_on with
  | _ n ih =>
    rw [natDigitsLE] at h
    split at h
    · rcases List.mem_singleton.mp h with rfl
      exact ⟨n, by omega, rfl⟩
    · rcases List.mem_cons.mp h with rfl | h
      · exact ⟨n % 10, Nat.mod_lt _ (by omega), rfl⟩
      · exact ih (n / 10) (Nat.div_lt_self (by omega) (by omega)) h

theorem foldl_natDigitsLE (n : Nat) : ∀ a : Nat,
    ((natDigitsLE n).reverse).foldl (fun x c => 10 * x + dVal c) a
      = a * 10 ^ (natDigitsLE n).length + n := by
  induction n using Nat.strong_induction_on with
  | _ n ih =>
    intro a
    rw [natDigitsLE]
    split
    · simp [dVal_dChar (by omega : n < 10)]
      ring
    · rename_i h
      have hrec := ih (n / 10) (Nat.div_lt_self (by omega) (by omega)) a
      have hm : n % 10 < 10 := Nat.mod_lt _ (by omega)
      simp only [List.reverse_cons, List.foldl_append, List.foldl_cons,
        List.foldl_nil, hrec, dVal_dChar hm, List.length_cons]
      have hdm : 10 * (n / 10) + n % 10 = n := Nat.div_add_mod n 10
      rw [pow_succ]
      ring_nf
      ring_nf at hdm
      rw [Nat.add_assoc, hdm]

theorem digitsTailOk_of_digits : ∀ (l : List Char),
    (∀ c ∈ l, c.isDigit = true) → digitsTailOk l = true := by
  intro l
  induction l with
  | nil => intro _; rfl
  | cons c rest ih =>
    intro h
    cases rest with
    | nil => exact h c (by simp)
    | cons c2 rest2 =>
      have hc : c ≠ '_' := by
        intro hcu
        subst hcu
        exact absurd (h '_' (by simp)) (by decide)
      rw [digitsTailOk, if_neg hc]
      simp [h c (by simp), ih (fun x hx => h x (by simp [hx]))]

theorem parseDigits_natDigitsLE (n : Nat) :
    parseDigits ((natDigitsLE n).reverse) = some n := by
  have hne : (natDigitsLE n).reverse ≠ [] := by
    simp [natDigitsLE_ne_nil n]
  have hall : ∀ c ∈ (natDigitsLE n).reverse, c.isDigit = true := by
    intro c hc
    obtain ⟨k, -, rfl⟩ := natDigitsLE_mem (List.mem_reverse.mp hc)
    exact (dChar_spec k).1
  have hok : pyDigitsOk ((natDigitsLE n).reverse) = true := by
    cases hrev : (natDigitsLE n).reverse with
    | nil => exact absurd hrev hne
    | cons c rest =>
      have hc : c.isDigit = true := hall c (by rw [hrev]; simp)
      have hrest : digitsTailOk rest = true :=
        digitsTailOk_of_digits rest (fun x hx => hall x (by rw [hrev]; simp [hx]))
      simp [pyDigitsOk, hc, hrest]
  have hfil : ((natDigitsLE n).reverse).filter (fun c => c != '_')
      = (natDigitsLE n).reverse := by
    apply List.filter_eq_self.mpr
    intro c hc
    obtain ⟨k, -, rfl⟩ := natDigitsLE_mem (List.mem_reverse.mp hc)
    exact (dChar_spec k).2.2.2.2.2
  rw [parseDigits, if_pos hok, hfil, foldl_natDigitsLE n 0]
  simp

theorem stripWS_of_not_WS {l : List Char} (h : ∀ c ∈ l, isWS c = false) :
    stripWS l = l := by
  have h1 : l.dropWhile isWS = l := by
    cases l with
    | nil => rfl
    | cons c cs => rw [List.dropWhile_cons, if_neg (by simp [h c (by simp)])]
  have h2 : l.reverse.dropWhile isWS = l.reverse := by
    cases hr : l.reverse with
    | nil => rfl
    | cons c cs =>
      rw [List.dropWhile_cons,
        if_neg (by simp [h c (List.mem_reverse.mp (by rw [hr]; simp))])]
  rw [stripWS, h1, h2, List.reverse_reverse]

theorem pyInt?_natRepr (n : Nat) : pyInt? (natRepr n).data = some (n : Int) := by
  have hdata : (natRepr n).data = (natDigitsLE n).reverse := rfl
  have hstrip : stripWS ((natDigitsLE n).reverse) = (natDigitsLE n).reverse := by
    apply stripWS_of_not_WS
    intro c hc
    obtain ⟨k, -, rfl⟩ := natDigitsLE_mem (List.mem_reverse.mp hc)
    exact (dChar_spec k).2.2.1
  have hhead : ∀ s : Char, ((natDigitsLE n).reverse).head? = some s →
      s ≠ '+' ∧ s ≠ '-' := by
    intro s hs
    have : s ∈ (natDigitsLE n).reverse := List.mem_of_mem_head? hs
    obtain ⟨k, -, rfl⟩ := natDigitsLE_mem (List.mem_reverse.mp this)
    constructor
    · simpa using (dChar_spec k).2.2.2.1
    · simpa using (dChar_spec k).2.2.2.2.1
  rw [pyInt?, hdata]
  simp only [hstrip]
  rw [if_neg, if_neg]
  · rw [parseDigits_natDigitsLE n]
    rfl
  · intro hcontra
    exact (hhead '-' hcontra).2 rfl
  · intro hcontra
    exact (hhead '+' hcontra).1 rfl

theorem takeWhile_digits_append (l₁ : List Char)
    (h : ∀ c ∈ l₁, (c != ')') = true) (l₂ : List Char) :
    (l₁ ++ ')' :: l₂).takeWhile (fun c => c != ')') = l₁ := by
  induction l₁ with
  | nil => simp [List.takeWhile_cons]
  | cons c cs ih =>
    rw [List.cons_append, List.takeWhile_cons, if_pos (h c (by simp))]
    rw [ih (fun x hx => h x (by simp [hx]))]

theorem firstPart_choiceString (n : Nat) (name : String) :
    firstPart (choiceString n name) = (natDigitsLE n).reverse := by
  have hdata : (choiceString n name).data
      = (natDigitsLE n).reverse ++ ')' :: (' ' :: name.data) := by
    rw [choiceString, String.data_append, String.data_append,
      show (") ").data = [')', ' '] from by decide,
      show (natRepr n).data = (natDigitsLE n).reverse from rfl]
    simp
  rw [firstPart, hdata]
  apply takeWhile_digits_append
  intro c hc
  obtain ⟨k, -, rfl⟩ := natDigitsLE_mem (List.mem_reverse.mp hc)
  exact (dChar_spec k).2.1

/-! Characterization of the Choice Builder loop. -/

theorem choiceLoop_update (loc : List String) (L : List (Nat × String)) :
    choiceLoop "update" loc L
      = (L.filter (fun pr => loc.contains pr.2)).map
          (fun pr => choiceString (pr.1 + 1) pr.2) := by
  induction L with
  | nil => rfl
  | cons p rest ih =>
    obtain ⟨i, name⟩ := p
    by_cases h : name ∈ loc <;>
      simp [choiceLoop, h, List.filter_cons, ih]

theorem choiceLoop_download (loc : List String) (L : List (Nat × String)) :
    choiceLoop "download" loc L
      = (L.filter (fun pr => !loc.contains pr.2)).map
          (fun pr => choiceString (pr.1 + 1) pr.2) := by
  induction L with
  | nil => rfl
  | cons p rest ih =>
    obtain ⟨i, name⟩ := p
    by_cases h : name ∈ loc <;>
      simp [choiceLoop, h, List.filter_cons, ih]

/-- Claim C2: in update mode the Choice Builder returns exactly the manifest
entries whose names are in the Local Component Set, in download mode exactly
those whose names are not in it, preserving manifest iteration order, each
rendered with its 1-based position in the full manifest. -/
theorem claim_c2 (m : Manifest) (loc : List String) :
    create_choices m loc "update"
      = (((m.map Prod.fst).enum).filter (fun pr => loc.contains pr.2)).map
          (fun pr => choiceString (pr.1 + 1) pr.2)
    ∧ create_choices m loc "download"
      = (((m.map Prod.fst).enum).filter (fun pr => !loc.contains pr.2)).map
          (fun pr => choiceString (pr.1 + 1) pr.2) :=
  ⟨choiceLoop_update loc (m.map Prod.fst).enum,
   choiceLoop_download loc (m.map Prod.fst).enum⟩

/-! The Selection Resolver round-trip. -/

theorem lookup_of_getElem? {data : Manifest} :
    ∀ {i : Nat} {name : String} {e : CompEntry},
    (data.map Prod.fst).Nodup → data[i]? = some (name, e) →
    data.lookup name = some e := by
  induction data with
  | nil => intro i name e _ hget; simp at hget
  | cons p rest ih =>
    intro i name e hnd hget
    obtain ⟨k, v⟩ := p
    cases i with
    | zero =>
      simp at hget
      obtain ⟨rfl, rfl⟩ := hget
      simp [List.lookup]
    | succ j =>
      simp only [List.getElem?_cons_succ] at hget
      have hk : k ≠ name := by
        intro hknd
        subst hknd
        simp only [List.map_cons, List.nodup_cons] at hnd
        exact hnd.1 (List.mem_map.mpr ⟨(k, e), List.getElem?_mem hget, rfl⟩)
      have hbeq : (name == k) = false := by
        simp [Ne.symm hk]
      rw [List.lookup, hbeq]
      exact ih (by simp only [List.map_cons, List.nodup_cons] at hnd; exact hnd.2) hget

/-- Claim C1: resolving a Choice Builder display string for the manifest
entry at 0-based position i recovers exactly that entry: its key as the
target directory, its zip value as the archive filename, and its da-tenere
value (defaulting to the empty list) as the preserve list. -/
theorem claim_c1 (data : Manifest) (i : Nat) (name : String) (e : CompEntry)
    (hnd : (data.map Prod.fst).Nodup)
    (hget : data[i]? = some (name, e)) :
    process_selection (choiceString (i + 1) name) data
      = Except.ok (e.zip, name, e.daTenere.getD []) := by
  have hpy : pyInt? (firstPart (choiceString (i + 1) name))
      = some ((i + 1 : Nat) : Int) := by
    rw [firstPart_choiceString]
    exact pyInt?_natRepr (i + 1)
  have hidx : pyListGet (data.map Prod.fst) (((i + 1 : Nat) : Int) - 1)
      = some name := by
    rw [pyListGet, if_pos (by push_cast; omega)]
    have htn : (((i + 1 : Nat) : Int) - 1).toNat = i := by omega
    rw [htn, List.getElem?_map, hget]
    rfl
  rw [process_selection, hpy]
  simp only [hidx, lookup_of_getElem? hnd hget, Option.getD_some]

/-- Claim C6 counterexample: the input string made of the single character 1
contains no close-paren separator, yet the resolver does not raise a
ValueError on it: it resolves it as index 1 and returns the first manifest
entry. -/
theorem claim_c6_cex :
    ("1".data.contains ')') = false ∧
    process_selection "1" [("alpha", ⟨some "alpha.zip", none⟩)]
      = Except.ok (some "alpha.zip", "alpha", []) := by
  constructor
  · decide
  · rfl

/-- Claim C6 (amended): the resolver raises its descriptive ValueError for
the sentinel value scarica; but not for every input string without a
close-paren separator: whenever the substring before the first close-paren
(the whole string when there is none) parses as a Python integer literal,
the resolver never raises that ValueError, resolving the index instead and
at most failing with an IndexError. (pyInt? accepts a subset of what the
int() builtin accepts, so this non-raising direction is faithful to the
program.) -/
theorem claim_c6_amended (data : Manifest) (s : String) (n : Int)
    (h : pyInt? (firstPart s) = some n) :
    process_selection "scarica" data
      = Except.error (PyErr.valueError "Selezione non valida per analisi indice.")
    ∧ ∀ e, process_selection s data ≠ Except.error (PyErr.valueError e) := by
  constructor
  · have hs : pyInt? (firstPart "scarica") = none := by decide
    rw [process_selection, hs]
  · intro e
    simp only [process_selection, h]
    cases hg : pyListGet (data.map Prod.fst) (n - 1) with
    | none => simp [hg]
    | some k => simp [hg]

/-- Claim C6 (amended), witness at concrete inputs: the sentinel raises the
ValueError and the numeric string of the counterexample does not. -/
theorem claim_c6_witness :
    process_selection "scarica" [("alpha", ⟨some "alpha.zip", none⟩)]
      = Except.error (PyErr.valueError "Selezione non valida per analisi indice.")
    ∧ process_selection "1" [("alpha", ⟨some "alpha.zip", none⟩)]
      ≠ Except.error (PyErr.valueError "Selezione non valida per analisi indice.") :=
  ⟨(claim_c6_amended [("alpha", ⟨some "alpha.zip", none⟩)] "1" 1 (by decide)).1,
   (claim_c6_amended [("alpha", ⟨some "alpha.zip", none⟩)] "1" 1 (by decide)).2
     "Selezione non valida per analisi indice."⟩

/-- Claim C1, witness at a concrete manifest and index. -/
theorem claim_c1_witness :
    process_selection (choiceString 2 "beta")
        [("alpha", ⟨some "alpha.zip", none⟩),
         ("beta", ⟨some "beta.zip", some ["cfg.ini"]⟩)]
      = Except.ok (some "beta.zip", "beta", ["cfg.ini"]) :=
  claim_c1
    [("alpha", ⟨some "alpha.zip", none⟩),
     ("beta", ⟨some "beta.zip", some ["cfg.ini"]⟩)]
    1 "beta" ⟨some "beta.zip", some ["cfg.ini"]⟩ (by decide) (by rfl)

/-!
Filesystem model for download_and_extract (src/main.py lines 108-191).

A node is a file with opaque content or a directory with an ordered entry
list; paths are component lists rooted at the process working directory.
The real program never has two sibling entries with the same name; lookups
use the first match so the model is total anyway.
-/

/-- A filesystem node: a file with its content, or a directory. -/
inductive Node where
  | file (content : String) : Node
  | dir (entries : List (String × Node)) : Node

/-- Entry list of a directory (the root of the model is such a list). -/
abbrev FS := List (String × Node)

/-- First entry with the given name, modelling name lookup in a real
directory (names are unique in any state the program builds). -/
def findEntry (es : FS) (k : String) : Option Node :=
  match es with
  | [] => none
  | (k', n) :: rest => if k' = k then some n else findEntry rest k

/-- Replace the first entry with the given name, or append a new one:
directory update, preserving the order of the other entries. -/
def upsertE (es : FS) (k : String) (n : Node) : FS :=
  match es with
  | [] => [(k, n)]
  | (k', n') :: rest =>
    if k' = k then (k', n) :: rest else (k', n') :: upsertE rest k n

/-- Resolve a path from a directory entry list; none when a component is
missing or a non-final component is a file (os.path.exists is false). -/
def lookupE (es : FS) : List String → Option Node
  | [] => none
  | [k] => findEntry es k
  | k :: r :: rest =>
    match findEntry es k with
    | some (Node.dir sub) => lookupE sub (r :: rest)
    | _ => none

/-- Write a node at a path, creating intermediate directories and
overwriting whatever was there (the semantics of extraction and of moving
a node to a fresh destination). -/
def setAtE (es : FS) : List String → Node → FS
  | [], _ => es
  | [k], n => upsertE es k n
  | k :: r :: rest, n =>
    let sub := match findEntry es k with
      | some (Node.dir s) => s
      | _ => []
    upsertE es k (Node.dir (setAtE sub (r :: rest) n))

/-- Remove the node at a path if present (os.remove / shutil.rmtree /
the removal half of shutil.move). -/
def removeAtE (es : FS) : List String → FS
  | [] => es
  | [k] => es.filter (fun p => p.1 != k)
  | k :: r :: rest =>
    match findEntry es k with
    | some (Node.dir sub) => upsertE es k (Node.dir (removeAtE sub (r :: rest)))
    | _ => es

/-- Boolean test that P is an initial segment of Q (path P lies on the way
to, or at, path Q). -/
def descends : List String → List String → Bool
  | [], _ => true
  | _ :: _, [] => false
  | a :: as, b :: bs => a = b && descends as bs

/-! Basic directory-entry lemmas. -/

theorem findEntry_upsert_self (es : FS) (k : String) (n : Node) :
    findEntry (upsertE es k n) k = some n := by
  induction es with
  | nil => simp [upsertE, findEntry]
  | cons p rest ih =>
    obtain ⟨k', n'⟩ := p
    by_cases h : k' = k <;> simp [upsertE, findEntry, h, ih]

theorem findEntry_upsert_ne (es : FS) {k j : String} (n : Node) (h : j ≠ k) :
    findEntry (upsertE es k n) j = findEntry es j := by
  induction es with
  | nil => simp [upsertE, findEntry, Ne.symm h]
  | cons p rest ih =>
    obtain ⟨k', n'⟩ := p
    by_cases hk : k' = k
    · subst hk
      simp [upsertE, findEntry, Ne.symm h]
    · by_cases hj : k' = j <;> simp [upsertE, findEntry, hk, hj, ih, h]

theorem upsert_self {es : FS} {k : String} {v : Node}
    (h : findEntry es k = some v) : upsertE es k v = es := by
  induction es with
  | nil => simp [findEntry] at h
  | cons p rest ih =>
    obtain ⟨k', n'⟩ := p
    by_cases hk : k' = k
    · subst hk
      simp [findEntry] at h
      simp [upsertE, h]
    · simp [findEntry, hk] at h
      simp [upsertE, hk, ih h]

theorem findEntry_filter_self (es : FS) (k : String) :
    findEntry (es.filter (fun p => p.1 != k)) k = none := by
  induction es with
  | nil => rfl
  | cons p rest ih =>
    obtain ⟨k', n'⟩ := p
    by_cases h : k' = k <;> simp [List.filter_cons, findEntry, h, ih]

theorem findEntry_filter_ne (es : FS) {k j : String} (h : j ≠ k) :
    findEntry (es.filter (fun p => p.1 != k)) j = findEntry es j := by
  induction es with
  | nil => rfl
  | cons p rest ih =>
    obtain ⟨k', n'⟩ := p
    by_cases hk : k' = k
    · subst hk
      simp [List.filter_cons, findEntry, Ne.symm h, ih]
    · by_cases hj : k' = j <;> simp [List.filter_cons, findEntry, hk, hj, ih, h]

theorem keys_upsertE (es : FS) (k : String) (n : Node) :
    (upsertE es k n).map Prod.fst
      = if k ∈ es.map Prod.fst then es.map Prod.fst
        else es.map Prod.fst ++ [k] := by
  induction es with
  | nil => simp [upsertE]
  | cons p rest ih =>
    obtain ⟨k', n'⟩ := p
    by_cases h : k' = k
    · subst h
      simp [upsertE]
    · simp only [upsertE, if_neg h, List.map_cons, ih]
      by_cases hm : k ∈ rest.map Prod.fst <;>
        simp [hm, Ne.symm h]

theorem nodup_keys_upsertE {es : FS} (k : String) (n : Node)
    (h : (es.map Prod.fst).Nodup) :
    ((upsertE es k n).map Prod.fst).Nodup := by
  rw [keys_upsertE]
  by_cases hm : k ∈ es.map Prod.fst
  · simpa [hm] using h
  · simp only [if_neg hm]
    exact List.Nodup.append h (List.nodup_singleton k)
      (by simpa using fun hx => fun (hk : k = k) => hm hx)

/-! Path-level lemmas about lookupE, setAtE and removeAtE. -/

theorem descends_nil_left (Q : List String) : descends [] Q = true := rfl

theorem descends_cons_nil (a : String) (as : List String) :
    descends (a :: as) [] = false := rfl

theorem descends_cons_cons (a b : String) (as bs : List String) :
    descends (a :: as) (b :: bs) = (decide (a = b) && descends as bs) := rfl

theorem lookupE_nil (Q : List String) : lookupE ([] : FS) Q = none := by
  rcases Q with _ | ⟨k, _ | ⟨r, rs⟩⟩ <;> rfl

theorem lookup_setAt_self (P : List String) (hne : P ≠ []) :
    ∀ (es : FS) (v : Node), lookupE (setAtE es P v) P = some v := by
  induction P with
  | nil => exact absurd rfl hne
  | cons k rest ih =>
    intro es v
    cases rest with
    | nil => simp [setAtE, lookupE, findEntry_upsert_self]
    | cons r rs =>
      simp only [setAtE, lookupE, findEntry_upsert_self]
      exact ih (List.cons_ne_nil r rs) _ v

theorem lookup_setAt_out (P : List String) : ∀ (Q : List String) (es : FS) (v : Node),
    descends P Q = false → descends Q P = false →
    lookupE (setAtE es P v) Q = lookupE es Q := by
  induction P with
  | nil => intro Q es v hPQ _; simp [descends_nil_left] at hPQ
  | cons k ps ih =>
    intro Q es v hPQ hQP
    cases Q with
    | nil => simp [descends_nil_left] at hQP
    | cons q qs =>
      rw [descends_cons_cons] at hPQ hQP
      by_cases hk : k = q
      · subst hk
        simp at hPQ hQP
        cases ps with
        | nil => simp [descends_nil_left] at hPQ
        | cons p2 ps2 =>
          cases qs with
          | nil => simp [descends_nil_left] at hQP
          | cons q2 qs2 =>
            cases hfe : findEntry es k with
            | none =>
              simp only [setAtE, lookupE, hfe, findEntry_upsert_self]
              rw [ih (q2 :: qs2) [] v hPQ hQP, lookupE_nil]
            | some nd =>
              cases nd with
              | file c =>
                simp only [setAtE, lookupE, hfe, findEntry_upsert_self]
                rw [ih (q2 :: qs2) [] v hPQ hQP, lookupE_nil]
              | dir s =>
                simp only [setAtE, lookupE, hfe, findEntry_upsert_self]
                rw [ih (q2 :: qs2) s v hPQ hQP]
      · have hqk : q ≠ k := fun h => hk h.symm
        cases ps with
        | nil =>
          cases qs with
          | nil => simp [setAtE, lookupE, findEntry_upsert_ne es v hqk]
          | cons q2 qs2 =>
            simp only [setAtE, lookupE]
            rw [findEntry_upsert_ne es v hqk]
        | cons p2 ps2 =>
          cases qs with
          | nil =>
            simp only [setAtE, lookupE]
            rw [findEntry_upsert_ne es _ hqk]
          | cons q2 qs2 =>
            simp only [setAtE, lookupE]
            rw [findEntry_upsert_ne es _ hqk]

theorem lookup_setAt_under (P : List String) :
    ∀ (Q : List String) (es : FS) (c : String),
    descends P Q = true → P ≠ Q → P ≠ [] →
    lookupE (setAtE es P (Node.file c)) Q = none := by
  induction P with
  | nil => intro _ _ _ _ _ hne; exact absurd rfl hne
  | cons k ps ih =>
    intro Q es c hPQ hne _
    cases Q with
    | nil => rw [descends_cons_nil] at hPQ; exact absurd hPQ (by simp)
    | cons q qs =>
      rw [descends_cons_cons] at hPQ
      simp only [Bool.and_eq_true, decide_eq_true_eq] at hPQ
      obtain ⟨rfl, hps⟩ := hPQ
      cases ps with
      | nil =>
        cases qs with
        | nil => exact absurd rfl hne
        | cons q2 qs2 =>
          simp only [setAtE, lookupE, findEntry_upsert_self]
      | cons p2 ps2 =>
        cases qs with
        | nil => rw [descends_cons_nil] at hps; exact absurd hps (by simp)
        | cons q2 qs2 =>
          simp only [setAtE, lookupE, findEntry_upsert_self]
          exact ih (q2 :: qs2) _ c hps
            (fun h => hne (by rw [h])) (List.cons_ne_nil p2 ps2)

theorem lookup_removeAt_self (P : List String) : ∀ (es : FS),
    lookupE (removeAtE es P) P = none := by
  induction P with
  | nil => intro es; rcases es with _ | ⟨p, rest⟩ <;> rfl
  | cons k ps ih =>
    intro es
    cases ps with
    | nil => simp [removeAtE, lookupE, findEntry_filter_self]
    | cons p2 ps2 =>
      cases hfe : findEntry es k with
      | none => simp only [removeAtE, lookupE, hfe]
      | some nd =>
        cases nd with
        | file c => simp only [removeAtE, lookupE, hfe]
        | dir s =>
          simp only [removeAtE, lookupE, hfe, findEntry_upsert_self]
          exact ih s

theorem lookup_removeAt_out (P : List String) : ∀ (Q : List String) (es : FS),
    descends P Q = false → descends Q P = false →
    lookupE (removeAtE es P) Q = lookupE es Q := by
  induction P with
  | nil => intro Q es hPQ _; simp [descends_nil_left] at hPQ
  | cons k ps ih =>
    intro Q es hPQ hQP
    cases Q with
    | nil => simp [descends_nil_left] at hQP
    | cons q qs =>
      rw [descends_cons_cons] at hPQ hQP
      by_cases hk : k = q
      · subst hk
        simp at hPQ hQP
        cases ps with
        | nil => simp [descends_nil_left] at hPQ
        | cons p2 ps2 =>
          cases qs with
          | nil => simp [descends_nil_left] at hQP
          | cons q2 qs2 =>
            cases hfe : findEntry es k with
            | none => simp only [removeAtE, hfe]
            | some nd =>
              cases nd with
              | file c => simp only [removeAtE, hfe]
              | dir s =>
                simp only [removeAtE, lookupE, hfe, findEntry_upsert_self]
                exact ih (q2 :: qs2) s hPQ hQP
      · have hqk : q ≠ k := fun h => hk h.symm
        cases ps with
        | nil =>
          cases qs with
          | nil => simp [removeAtE, lookupE, findEntry_filter_ne es hqk]
          | cons q2 qs2 =>
            simp only [removeAtE, lookupE]
            rw [findEntry_filter_ne es hqk]
        | cons p2 ps2 =>
          cases hfe : findEntry es k with
          | none => simp only [removeAtE, hfe]
          | some nd =>
            cases nd with
            | file c => simp only [removeAtE, hfe]
            | dir s =>
              cases qs with
              | nil =>
                simp only [removeAtE, lookupE, hfe]
                rw [findEntry_upsert_ne es _ hqk]
              | cons q2 qs2 =>
                simp only [removeAtE, lookupE, hfe]
                rw [findEntry_upsert_ne es _ hqk]

theorem removeAt_beyond_file : ∀ (Q : List String) (es : FS) (c : String)
    (D : List String), lookupE es Q = some (Node.file c) → D ≠ [] →
    removeAtE es (Q ++ D) = es := by
  intro Q
  induction Q with
  | nil => intro es c D h _; simp [lookupE] at h
  | cons k qs ih =>
    intro es c D h hD
    cases qs with
    | nil =>
      simp only [lookupE] at h
      cases D with
      | nil => exact absurd rfl hD
      | cons d ds => simp only [List.singleton_append, removeAtE, h]
    | cons q2 qs2 =>
      simp only [lookupE] at h
      rw [List.cons_append, List.cons_append]
      cases hfe : findEntry es k with
      | none => simp only [removeAtE, hfe]
      | some nd =>
        cases nd with
        | file c2 => simp only [removeAtE, hfe]
        | dir s =>
          rw [hfe] at h
          simp only at h
          simp only [removeAtE, hfe]
          have hrec : removeAtE s (q2 :: (qs2 ++ D)) = s := ih s c D h hD
          rw [hrec, upsert_self hfe]

/-! The Fetch-and-Install Engine (download_and_extract). -/

/-- os.path.basename of a relative path given as components. -/
def baseName (p : List String) : String := p.getLastD ""

/-- shutil.move of a node into the staging directory under its base name b:
when an entry named b already exists and is a directory, the node lands
inside it (real shutil.move semantics, and the inner name is again the
base name of the source); otherwise the entry is overwritten. -/
def moveIn (stg : FS) (b : String) (n : Node) : FS :=
  match findEntry stg b with
  | some (Node.dir sub) => upsertE stg b (Node.dir (upsertE sub b n))
  | _ => upsertE stg b n

/-- The preserve loop (src/main.py lines 127-131): each listed item that
exists under the target directory is moved out of the tree into the
staging area, flattened to its base name. Returns the updated tree and
the staging content. -/
def stageLoop (t : String) : FS → List (List String) → FS → FS × FS
  | fs, [], stg => (fs, stg)
  | fs, item :: rest, stg =>
    match lookupE fs (t :: item) with
    | some n =>
      stageLoop t (removeAtE fs (t :: item)) rest (moveIn stg (baseName item) n)
    | none => stageLoop t fs rest stg

/-- zipfile.extractall (src/main.py lines 142-143): write every member
file of the archive under the target directory, overwriting, creating
intermediate directories. -/
def extractAll (fs : FS) (t : String) (ms : List (List String × String)) : FS :=
  ms.foldl (fun f m => setAtE f (t :: m.1) (Node.file m.2)) fs

/-- Content of the last archive member at a given member path (later
members overwrite earlier ones during extraction). -/
def archLast (ms : List (List String × String)) (q : List String) : Option String :=
  ms.foldl (fun a m => if m.1 = q then some m.2 else a) none

/-- Outcome oracle for the fallible filesystem calls of the restoration
loop: whether removal of a colliding destination, the move back from
staging, and the copy fallback raise an OSError for a given staged name. -/
structure RestoreOracle where
  removeFails : String → Bool
  moveFails : String → Bool
  copyFails : String → Bool

/-- The oracle of a run in which every filesystem call succeeds. -/
def allOk : RestoreOracle :=
  ⟨fun _ => false, fun _ => false, fun _ => false⟩

/-- The try/except-pass pattern around a fallible filesystem operation. -/
def pyTry (x : Except String FS) (fallback : FS) : FS :=
  match x with
  | Except.ok f => f
  | Except.error _ => fallback

/-- Removal of a colliding restore destination (src/main.py lines 165-172,
os.remove for a file and shutil.rmtree for a directory); may raise per the
oracle. -/
def removeDestE (o : RestoreOracle) (fs : FS) (t nm : String) : Except String FS :=
  if o.removeFails nm then Except.error "OSError"
  else Except.ok (removeAtE fs [t, nm])

/-- shutil.move back from staging (src/main.py line 175): into an existing
directory destination the node lands inside it, otherwise the destination
is replaced; may raise per the oracle. -/
def moveBackE (o : RestoreOracle) (fs : FS) (t nm : String) (n : Node) :
    Except String FS :=
  if o.moveFails nm then Except.error "OSError"
  else Except.ok (match lookupE fs [t, nm] with
    | some (Node.dir _) => setAtE fs [t, nm, nm] n
    | _ => setAtE fs [t, nm] n)

/-- The recursive-copy fallback (src/main.py lines 178-184, shutil.copytree
or shutil.copy2); may raise per the oracle. -/
def copyBackE (o : RestoreOracle) (fs : FS) (t nm : String) (n : Node) :
    Except String FS :=
  if o.copyFails nm then Except.error "Exception"
  else Except.ok (setAtE fs [t, nm] n)

/-- First half of the restoration body (src/main.py lines 164-172): when
the destination exists, remove it, swallowing any error. -/
def restoreDest (o : RestoreOracle) (fs : FS) (t nm : String) : FS :=
  if (lookupE fs [t, nm]).isSome then pyTry (removeDestE o fs t nm) fs
  else fs

/-- Restoration of one staged item (src/main.py lines 160-184): remove any
colliding destination first (errors swallowed), then move the staged item
back; on move failure, attempt a recursive copy (errors swallowed). -/
def restoreOneE (o : RestoreOracle) (fs : FS) (t : String) (pr : String × Node) :
    Except String FS :=
  match moveBackE o (restoreDest o fs t pr.1) t pr.1 pr.2 with
  | Except.ok f2 => Except.ok f2
  | Except.error _ =>
    Except.ok (pyTry (copyBackE o (restoreDest o fs t pr.1) t pr.1 pr.2)
      (restoreDest o fs t pr.1))

/-- The restoration loop over all staged items (os.listdir order is the
staging insertion order in this model); an uncaught exception from the
body would abort the loop. -/
def restoreAllE (o : RestoreOracle) (t : String) :
    FS → FS → Except String FS
  | [], fs => Except.ok fs
  | pr :: rest, fs =>
    match restoreOneE o fs t pr with
    | Except.ok f2 => restoreAllE o t rest f2
    | Except.error e => Except.error e

/-- Total form of the restoration loop as download_and_extract runs it
(restoration never throws: theorem claim_c7). -/
def restoreAll (o : RestoreOracle) (t : String) (entries : FS) (fs : FS) : FS :=
  pyTry (restoreAllE o t entries fs) fs

/-- Ensure the target directory exists (src/main.py lines 120-121). -/
def ensureTarget (fs : FS) (t : String) : FS :=
  if (lookupE fs [t]).isSome then fs else upsertE fs t (Node.dir [])

/-- The staging content the preserve step of a run produces. -/
def stagedEntries (targetDirectory : String) (preserve : List (List String))
    (fs0 : FS) : FS :=
  (stageLoop targetDirectory (ensureTarget fs0 targetDirectory) preserve []).2

/-- Final state of one download_and_extract run: the working-directory
tree, the staging-directory content (none when never created or already
destroyed), and whether a staging directory was ever created. -/
structure DLState where
  fs : FS
  staging : Option FS
  stagingCreated : Bool

/-- download_and_extract (src/main.py lines 108-191). Parameters: o is the
outcome oracle for the restoration-loop filesystem calls; fileToDownload
the archive filename (the file is written into the working directory);
targetDirectory the component directory name; preserve the da-tenere list
with each entry split into path components; dl is some list of zip member
files when the HTTP download succeeds and none when requests raises (a
connection error or raise_for_status on a non-success status); fs0 the
initial working-directory tree. The archive write, the extraction, the
archive-file removal and the final staging rmtree are modelled as
succeeding; a zip archive is modelled by its member files. -/
def download_and_extract (o : RestoreOracle)
    (fileToDownload targetDirectory : String)
    (preserve : List (List String)) (dl : Option (List (List String × String)))
    (fs0 : FS) : DLState :=
  let fs1 := ensureTarget fs0 targetDirectory
  let created := !preserve.isEmpty
  let st :=
    if preserve.isEmpty then (fs1, (none : Option FS))
    else
      let p := stageLoop targetDirectory fs1 preserve []
      (p.1, some p.2)
  let fs3 :=
    match dl with
    | none => st.1
    | some ms =>
      extractAll (upsertE st.1 fileToDownload (Node.file "archive-bytes"))
        targetDirectory ms
  let fs4 :=
    if (lookupE fs3 [fileToDownload]).isSome then removeAtE fs3 [fileToDownload]
    else fs3
  match st.2 with
  | some entries => ⟨restoreAll o targetDirectory entries fs4, none, created⟩
  | none => ⟨fs4, none, created⟩

/-! Lemmas about the restoration loop. -/

theorem descends_two_two (t a b : String) :
    descends [t, a] [t, b] = decide (a = b) := by
  simp [descends]

theorem descends_two_one (t a f : String) : descends [t, a] [f] = false := by
  simp [descends]

theorem descends_one_two {f t : String} (a : String) (h : f ≠ t) :
    descends [f] [t, a] = false := by
  simp [descends, h]

theorem restoreOneE_ok (o : RestoreOracle) (fs : FS) (t : String)
    (pr : String × Node) : ∃ g, restoreOneE o fs t pr = Except.ok g := by
  cases hm : moveBackE o (restoreDest o fs t pr.1) t pr.1 pr.2 with
  | ok f2 => exact ⟨f2, by rw [restoreOneE, hm]⟩
  | error e =>
    exact ⟨pyTry (copyBackE o (restoreDest o fs t pr.1) t pr.1 pr.2)
      (restoreDest o fs t pr.1), by rw [restoreOneE, hm]⟩

theorem restoreAllE_ok (o : RestoreOracle) (t : String) : ∀ (entries fs : FS),
    ∃ g, restoreAllE o t entries fs = Except.ok g := by
  intro entries
  induction entries with
  | nil => exact fun fs => ⟨fs, rfl⟩
  | cons pr rest ih =>
    intro fs
    obtain ⟨f2, h2⟩ := restoreOneE_ok o fs t pr
    obtain ⟨g, hg⟩ := ih f2
    exact ⟨g, by rw [restoreAllE, h2]; exact hg⟩

theorem restoreDest_none {o : RestoreOracle} {nm : String} (fs : FS) (t : String)
    (hrf : o.removeFails nm = false) :
    lookupE (restoreDest o fs t nm) [t, nm] = none := by
  rw [restoreDest]
  cases hl : lookupE fs [t, nm] with
  | none => simp [hl]
  | some nd => simp [hl, pyTry, removeDestE, hrf, lookup_removeAt_self]

theorem restoreOneE_allOk (fs : FS) (t nm : String) (n : Node) :
    restoreOneE allOk fs t (nm, n)
      = Except.ok (setAtE (restoreDest allOk fs t nm) [t, nm] n) := by
  have hl : lookupE (restoreDest allOk fs t nm) [t, nm] = none :=
    restoreDest_none fs t rfl
  rw [restoreOneE]
  simp only [moveBackE, show allOk.moveFails nm = false from rfl,
    Bool.false_eq_true, if_false, hl]

theorem restoreAll_cons (t nm : String) (n : Node) (rest fs : FS) :
    restoreAll allOk t ((nm, n) :: rest) fs
      = restoreAll allOk t rest (setAtE (restoreDest allOk fs t nm) [t, nm] n) := by
  obtain ⟨g, hg⟩ :=
    restoreAllE_ok allOk t rest (setAtE (restoreDest allOk fs t nm) [t, nm] n)
  have hL : restoreAllE allOk t ((nm, n) :: rest) fs = Except.ok g := by
    rw [restoreAllE, restoreOneE_allOk]
    exact hg
  rw [restoreAll, restoreAll, hL, hg]
  rfl

/-- A run of the restoration loop does not touch a destination name none of
the staged items has. -/
theorem restoreAll_preserves (t m : String) : ∀ (entries fs : FS),
    (∀ pr ∈ entries, pr.1 ≠ m) →
    lookupE (restoreAll allOk t entries fs) [t, m] = lookupE fs [t, m] := by
  intro entries
  induction entries with
  | nil => intro fs _; rfl
  | cons pr rest ih =>
    intro fs h
    obtain ⟨nm, n⟩ := pr
    have hnm : nm ≠ m := h (nm, n) (by simp)
    rw [restoreAll_cons, ih _ (fun q hq => h q (by simp [hq]))]
    have h1 : lookupE (setAtE (restoreDest allOk fs t nm) [t, nm] n) [t, m]
        = lookupE (restoreDest allOk fs t nm) [t, m] := by
      apply lookup_setAt_out <;> rw [descends_two_two] <;> simp [hnm, Ne.symm hnm]
    rw [h1, restoreDest]
    cases hl : lookupE fs [t, nm] with
    | none => simp [hl]
    | some nd =>
      simp only [hl, Option.isSome_some, if_true, pyTry, removeDestE, allOk]
      apply lookup_removeAt_out <;> rw [descends_two_two] <;>
        simp [hnm, Ne.symm hnm]

/-- A run of the restoration loop does not touch entries of the working
directory other than the target directory. -/
theorem restoreAll_preserves_other {t f : String} (hft : f ≠ t) :
    ∀ (entries fs : FS),
    lookupE (restoreAll allOk t entries fs) [f] = lookupE fs [f] := by
  intro entries
  induction entries with
  | nil => intro fs; rfl
  | cons pr rest ih =>
    intro fs
    obtain ⟨nm, n⟩ := pr
    rw [restoreAll_cons, ih]
    have h1 : lookupE (setAtE (restoreDest allOk fs t nm) [t, nm] n) [f]
        = lookupE (restoreDest allOk fs t nm) [f] := by
      apply lookup_setAt_out
      · rw [descends_two_one]
      · rw [descends_one_two nm hft]
    rw [h1, restoreDest]
    cases hl : lookupE fs [t, nm] with
    | none => simp [hl]
    | some nd =>
      simp only [hl, Option.isSome_some, if_true, pyTry, removeDestE, allOk]
      apply lookup_removeAt_out
      · rw [descends_two_one]
      · rw [descends_one_two nm hft]

/-- Every staged item is placed at its destination by the restoration loop
when the filesystem calls succeed. -/
theorem restore_lands (t : String) : ∀ (entries fs : FS) (nm : String) (nd : Node),
    (entries.map Prod.fst).Nodup → findEntry entries nm = some nd →
    lookupE (restoreAll allOk t entries fs) [t, nm] = some nd := by
  intro entries
  induction entries with
  | nil => intro fs nm nd _ hfe; simp [findEntry] at hfe
  | cons pr rest ih =>
    intro fs nm nd hnd hfe
    obtain ⟨k, v⟩ := pr
    simp only [List.map_cons, List.nodup_cons] at hnd
    by_cases hk : k = nm
    · subst hk
      simp only [findEntry, if_pos rfl] at hfe
      obtain rfl : v = nd := by injection hfe
      rw [restoreAll_cons]
      rw [restoreAll_preserves t k rest _
        (fun q hq hqk => hnd.1 (hqk ▸ List.mem_map.mpr ⟨q, hq, rfl⟩))]
      exact lookup_setAt_self [t, k] (by simp) _ v
    · simp only [findEntry, if_neg hk] at hfe
      rw [restoreAll_cons]
      exact ih _ nm nd hnd.2 hfe

/-! Lemmas about the preserve (staging) loop. -/

theorem nodup_keys_moveIn {stg : FS} (b : String) (n : Node)
    (h : (stg.map Prod.fst).Nodup) : ((moveIn stg b n).map Prod.fst).Nodup := by
  rw [moveIn]
  cases hfe : findEntry stg b with
  | none => exact nodup_keys_upsertE b n h
  | some nd =>
    cases nd with
    | file c => exact nodup_keys_upsertE b n h
    | dir sub => exact nodup_keys_upsertE b _ h

theorem stage_keys_nodup (t : String) : ∀ (pres : List (List String)) (fs stg : FS),
    (stg.map Prod.fst).Nodup →
    (((stageLoop t fs pres stg).2).map Prod.fst).Nodup := by
  intro pres
  induction pres with
  | nil => intro fs stg h; exact h
  | cons item rest ih =>
    intro fs stg h
    rw [stageLoop]
    cases hl : lookupE fs (t :: item) with
    | none => exact ih fs stg h
    | some n => exact ih _ _ (nodup_keys_moveIn (baseName item) n h)

/-- The cleanup step always leaves no archive file behind. -/
theorem lookup_cleanup_none (fs3 : FS) (f : String) :
    lookupE (if (lookupE fs3 [f]).isSome then removeAtE fs3 [f] else fs3) [f]
      = none := by
  cases hl : lookupE fs3 [f] with
  | none => simp [hl]
  | some nd => simp [hl, lookup_removeAt_self]

/-- Claim C5 counterexample: with preserve list da-tenere containing the
single entry x and a target directory that exists but is empty (so no
listed path exists under it), the run still creates a staging directory,
contradicting the claim that none is created in that case. -/
theorem claim_c5_cex :
    lookupE [("t", Node.dir [])] ["t", "x"] = none ∧
    (download_and_extract allOk "f.zip" "t" [["x"]] (some [])
        [("t", Node.dir [])]).stagingCreated = true := by
  constructor <;> rfl

/-- Claim C5 (amended): a staging directory is created exactly when the
preserve list is non-empty, whether or not any listed path currently
exists under the target directory, and it is destroyed by the end of
every run. -/
theorem claim_c5_amended (o : RestoreOracle) (f t : String)
    (preserve : List (List String)) (dl : Option (List (List String × String)))
    (fs0 : FS) :
    (download_and_extract o f t preserve dl fs0).stagingCreated
        = !preserve.isEmpty
    ∧ (download_and_extract o f t preserve dl fs0).staging = none := by
  cases hp : preserve.isEmpty <;> simp [download_and_extract, hp]

/-- Claim C7: the restoration loop swallows every error of its filesystem
calls and returns normally for every oracle; and for each staged item, any
colliding destination is removed first and the item is moved back, with a
recursive copy attempted as fallback when the move fails: whenever the
removal and the copy succeed for an item (whatever the move does), the item
ends up at its destination. -/
theorem claim_c7 :
    (∀ (o : RestoreOracle) (t : String) (entries fs : FS),
      ∃ g, restoreAllE o t entries fs = Except.ok g)
    ∧ (∀ (o : RestoreOracle) (t nm : String) (n : Node) (fs : FS),
      o.removeFails nm = false → o.copyFails nm = false →
      ∃ g, restoreOneE o fs t (nm, n) = Except.ok g ∧
        lookupE g [t, nm] = some n) := by
  constructor
  · exact fun o t entries fs => restoreAllE_ok o t entries fs
  · intro o t nm n fs hrf hcf
    have hl : lookupE (restoreDest o fs t nm) [t, nm] = none :=
      restoreDest_none fs t hrf
    cases hmv : o.moveFails nm with
    | false =>
      refine ⟨setAtE (restoreDest o fs t nm) [t, nm] n, ?_, ?_⟩
      · rw [restoreOneE]
        simp only [moveBackE, hmv, Bool.false_eq_true, if_false, hl]
      · exact lookup_setAt_self [t, nm] (by simp) _ n
    | true =>
      refine ⟨setAtE (restoreDest o fs t nm) [t, nm] n, ?_, ?_⟩
      · rw [restoreOneE]
        simp only [moveBackE, hmv, if_true, pyTry, copyBackE, hcf,
          Bool.false_eq_true, if_false]
      · exact lookup_setAt_self [t, nm] (by simp) _ n

/-- Claim C7, witness: a concrete restoration run with a failing move and
a succeeding copy fallback. -/
theorem claim_c7_witness :
    (∃ g, restoreAllE ⟨fun _ => true, fun _ => true, fun _ => true⟩ "t"
        [("a", Node.file "x")] [("t", Node.dir [])] = Except.ok g)
    ∧ (∃ g, restoreOneE ⟨fun _ => false, fun _ => true, fun _ => false⟩
        [("t", Node.dir [])] "t" ("a", Node.file "x") = Except.ok g ∧
        lookupE g ["t", "a"] = some (Node.file "x")) :=
  ⟨claim_c7.1 ⟨fun _ => true, fun _ => true, fun _ => true⟩ "t"
      [("a", Node.file "x")] [("t", Node.dir [])],
   claim_c7.2 ⟨fun _ => false, fun _ => true, fun _ => false⟩ "t" "a"
      (Node.file "x") [("t", Node.dir [])] rfl rfl⟩

/-- Claim C4: on every exit path of download_and_extract (success, or a
download failure modelled by dl = none) the downloaded archive file and
the staging directory are gone, and every item staged by the preserve step
is back in the target directory, so preserved items are not lost even on
download failure. -/
theorem claim_c4 (f t : String) (preserve : List (List String))
    (dl : Option (List (List String × String))) (fs0 : FS) (hft : f ≠ t) :
    (download_and_extract allOk f t preserve dl fs0).staging = none
    ∧ lookupE (download_and_extract allOk f t preserve dl fs0).fs [f] = none
    ∧ ∀ nm nd, findEntry (stagedEntries t preserve fs0) nm = some nd →
        lookupE (download_and_extract allOk f t preserve dl fs0).fs [t, nm]
          = some nd := by
  cases hp : preserve.isEmpty
  · refine ⟨by simp [download_and_extract, hp], ?_, ?_⟩
    · simp only [download_and_extract, hp, Bool.false_eq_true, if_false]
      rw [restoreAll_preserves_other hft]
      exact lookup_cleanup_none _ f
    · intro nm nd hfe
      simp only [download_and_extract, hp, Bool.false_eq_true, if_false]
      apply restore_lands
      · exact stage_keys_nodup t preserve _ [] (by simp)
      · exact hfe
  · have hpn : preserve = [] := List.isEmpty_iff.mp hp
    subst hpn
    refine ⟨by simp [download_and_extract], ?_, ?_⟩
    · simp only [download_and_extract, List.isEmpty_nil, if_true]
      exact lookup_cleanup_none _ f
    · intro nm nd hfe
      simp [stagedEntries, stageLoop, findEntry] at hfe

/-- Claim C4, witness: a concrete run with a failing download in which the
staged file config.ini is restored and no archive or staging remains. -/
theorem claim_c4_witness :
    (download_and_extract allOk "c.zip" "comp" [["config.ini"]] none
        [("comp", Node.dir [("config.ini", Node.file "keep")])]).staging = none
    ∧ lookupE (download_and_extract allOk "c.zip" "comp" [["config.ini"]] none
        [("comp", Node.dir [("config.ini", Node.file "keep")])]).fs ["c.zip"]
        = none
    ∧ lookupE (download_and_extract allOk "c.zip" "comp" [["config.ini"]] none
        [("comp", Node.dir [("config.ini", Node.file "keep")])]).fs
        ["comp", "config.ini"] = some (Node.file "keep") := by
  obtain ⟨h1, h2, h3⟩ := claim_c4 "c.zip" "comp" [["config.ini"]] none
    [("comp", Node.dir [("config.ini", Node.file "keep")])] (by decide)
  exact ⟨h1, h2, h3 "config.ini" (Node.file "keep") (by rfl)⟩

/-! Further path lemmas used for the frame properties. -/

theorem descends_cons_same (a : String) (A B : List String) :
    descends (a :: A) (a :: B) = descends A B := by
  simp [descends_cons_cons]

theorem lookupE_cons_long (es : FS) (k q : String) (qs : List String) :
    lookupE es (k :: q :: qs)
      = match findEntry es k with
        | some (Node.dir s) => lookupE s (q :: qs)
        | _ => none := rfl

/-- Removal never makes a missing path appear. -/
theorem lookup_removeAt_none (P : List String) : ∀ (Q : List String) (es : FS),
    lookupE es Q = none → lookupE (removeAtE es P) Q = none := by
  induction P with
  | nil => intro Q es h; exact h
  | cons k ps ih =>
    intro Q es h
    cases ps with
    | nil =>
      cases Q with
      | nil => rfl
      | cons q qs =>
        by_cases hq : q = k
        · subst hq
          cases qs with
          | nil => simp [removeAtE, lookupE, findEntry_filter_self]
          | cons q2 qs2 =>
            simp only [removeAtE, lookupE, findEntry_filter_self]
        · cases qs with
          | nil =>
            simp only [lookupE] at h
            simp only [removeAtE, lookupE, findEntry_filter_ne es hq, h]
          | cons q2 qs2 =>
            simp only [lookupE] at h ⊢
            rw [removeAtE, findEntry_filter_ne es hq]
            exact h
    | cons p2 ps2 =>
      cases hfe : findEntry es k with
      | none => simpa [removeAtE, hfe] using h
      | some nd =>
        cases nd with
        | file c => simpa [removeAtE, hfe] using h
        | dir s =>
          simp only [removeAtE, hfe]
          cases Q with
          | nil => rfl
          | cons q qs =>
            by_cases hq : q = k
            · subst hq
              cases qs with
              | nil =>
                simp only [lookupE] at h
                rw [h] at hfe
                exact absurd hfe (by simp)
              | cons q2 qs2 =>
                simp only [lookupE, hfe] at h
                simp only [lookupE, findEntry_upsert_self]
                exact ih (q2 :: qs2) s h
            · cases qs with
              | nil =>
                simp only [lookupE] at h ⊢
                rw [findEntry_upsert_ne es _ hq]
                exact h
              | cons q2 qs2 =>
                simp only [lookupE] at h ⊢
                rw [findEntry_upsert_ne es _ hq]
                exact h

/-- An entry of the working directory other than the target is not touched
by an update below the target. -/
theorem lookup_upsert_root_ne {f t : String} (fs : FS) (n : Node) (h : f ≠ t) :
    ∀ (X : List String), lookupE (upsertE fs f n) (t :: X) = lookupE fs (t :: X) := by
  intro X
  have hfe : findEntry (upsertE fs f n) t = findEntry fs t :=
    findEntry_upsert_ne fs n (Ne.symm h)
  cases X with
  | nil => simpa [lookupE] using hfe
  | cons x xs => rw [lookupE_cons_long, lookupE_cons_long, hfe]

/-- A path of length at least two can only resolve through a directory
entry at its head. -/
theorem lookup_cons_gives_dir {fs : FS} {t : String} {X : List String} {v : Node}
    (hX : X ≠ []) (h : lookupE fs (t :: X) = some v) :
    ∃ s, findEntry fs t = some (Node.dir s) := by
  cases X with
  | nil => exact absurd rfl hX
  | cons x xs =>
    rw [lookupE_cons_long] at h
    cases hfe : findEntry fs t with
    | none => rw [hfe] at h; exact absurd h (by simp)
    | some nd =>
      cases nd with
      | file c => rw [hfe] at h; exact absurd h (by simp)
      | dir s => exact ⟨s, rfl⟩

theorem ensureTarget_of_exists {fs : FS} {t : String} {X : List String} {v : Node}
    (hX : X ≠ []) (h : lookupE fs (t :: X) = some v) : ensureTarget fs t = fs := by
  obtain ⟨s, hs⟩ := lookup_cons_gives_dir hX h
  rw [ensureTarget, if_pos]
  simp [lookupE, hs]

/-- The archive-file cleanup step does not touch paths below the target. -/
theorem lookup_cleanup_other {f t : String} (fs3 : FS) (h : f ≠ t)
    (X : List String) :
    lookupE (if (lookupE fs3 [f]).isSome then removeAtE fs3 [f] else fs3) (t :: X)
      = lookupE fs3 (t :: X) := by
  cases hl : lookupE fs3 [f] with
  | none => simp [hl]
  | some nd =>
    simp only [hl, Option.isSome_some, if_true]
    have hfe : findEntry (fs3.filter (fun p => p.1 != f)) t = findEntry fs3 t :=
      findEntry_filter_ne fs3 (Ne.symm h)
    cases X with
    | nil => simpa [removeAtE, lookupE] using hfe
    | cons x xs =>
      rw [show removeAtE fs3 [f] = fs3.filter (fun p => p.1 != f) from rfl,
        lookupE_cons_long, lookupE_cons_long, hfe]

/-! Lemmas about extraction. -/

theorem descends_refl : ∀ (P : List String), descends P P = true := by
  intro P
  induction P with
  | nil => rfl
  | cons a as ih => rw [descends_cons_cons, ih]; simp

theorem archLast_foldl (q : List String) : ∀ (ms : List (List String × String))
    (i : Option String),
    ms.foldl (fun a m => if m.1 = q then some m.2 else a) i
      = match ms.foldl (fun a m => if m.1 = q then some m.2 else a) none with
        | some c => some c
        | none => i := by
  intro ms
  induction ms with
  | nil => intro i; rfl
  | cons m rest ih =>
    intro i
    rw [List.foldl_cons, List.foldl_cons, ih (if m.1 = q then some m.2 else i),
      ih (if m.1 = q then some m.2 else none)]
    cases h : rest.foldl (fun a m => if m.1 = q then some m.2 else a) none with
    | some c => rfl
    | none => by_cases hm : m.1 = q <;> simp [hm]

theorem archLast_cons (m : List String × String) (rest : List (List String × String))
    (q : List String) :
    archLast (m :: rest) q
      = (match archLast rest q with
         | some c => some c
         | none => if m.1 = q then some m.2 else none) := by
  have h1 : archLast (m :: rest) q
      = rest.foldl (fun a x => if x.1 = q then some x.2 else a)
          (if m.1 = q then some m.2 else none) := rfl
  rw [h1, archLast_foldl]
  rfl

/-- What extraction leaves at a member path that no other member path
overlaps: the last member written at that path, or the prior content. -/
theorem extract_lookup (t : String) (q : List String) (hq : q ≠ []) :
    ∀ (ms : List (List String × String)) (fs : FS),
    (∀ m ∈ ms, m.1 = q ∨ (descends q m.1 = false ∧ descends m.1 q = false)) →
    lookupE (extractAll fs t ms) (t :: q)
      = match archLast ms q with
        | some c => some (Node.file c)
        | none => lookupE fs (t :: q) := by
  intro ms
  induction ms with
  | nil => intro fs _; rfl
  | cons m rest ih =>
    intro fs hcond
    rw [show extractAll fs t (m :: rest)
        = extractAll (setAtE fs (t :: m.1) (Node.file m.2)) t rest from rfl,
      archLast_cons, ih _ (fun x hx => hcond x (by simp [hx]))]
    cases archLast rest q with
    | some c => rfl
    | none =>
      rcases hcond m (by simp) with hm | ⟨h1, h2⟩
      · rw [hm, if_pos rfl]
        exact lookup_setAt_self (t :: q) (by simp) fs (Node.file m.2)
      · have hmq : m.1 ≠ q := by
          intro hc
          subst hc
          rw [descends_refl] at h1
          exact absurd h1 (by simp)
        rw [if_neg hmq]
        apply lookup_setAt_out
        · rw [descends_cons_same]; exact h2
        · rw [descends_cons_same]; exact h1

/-- Extraction cannot create anything at a path no member descends into. -/
theorem extract_none (t : String) (p : List String) (hp : p ≠ []) :
    ∀ (ms : List (List String × String)) (fs : FS),
    (∀ m ∈ ms, descends p m.1 = false) →
    lookupE fs (t :: p) = none → lookupE (extractAll fs t ms) (t :: p) = none := by
  intro ms
  induction ms with
  | nil => intro fs _ h; exact h
  | cons m rest ih =>
    intro fs hcond h
    rw [show extractAll fs t (m :: rest)
        = extractAll (setAtE fs (t :: m.1) (Node.file m.2)) t rest from rfl]
    apply ih _ (fun x hx => hcond x (by simp [hx]))
    by_cases hd : descends m.1 p = true
    · have hmp : m.1 ≠ p := by
        intro hc
        subst hc
        have := hcond m (by simp)
        rw [descends_refl] at this
        exact absurd this (by simp)
      rw [lookup_setAt_under (t :: m.1) (t :: p) fs m.2
        (by rw [descends_cons_same]; exact hd)
        (by intro hc; exact hmp (by injection hc)) (by simp)]
    · rw [lookup_setAt_out (t :: m.1) (t :: p) fs (Node.file m.2)
        (by rw [descends_cons_same]; simpa using hd)
        (by rw [descends_cons_same]; exact hcond m (by simp))]
      exact h

/-! Lemmas about what the preserve loop stages and leaves in place. -/

theorem removeAt_preserves_file {fs : FS} {t X c : String}
    (hX : lookupE fs [t, X] = some (Node.file c)) (item : List String)
    (hne : item ≠ []) (hb : baseName item ≠ X) :
    lookupE (removeAtE fs (t :: item)) [t, X] = some (Node.file c) := by
  cases item with
  | nil => exact absurd rfl hne
  | cons x xs =>
    cases xs with
    | nil =>
      have hxX : x ≠ X := by
        have hbx : baseName [x] = x := rfl
        rw [hbx] at hb
        exact hb
      have h1 : descends (t :: [x]) [t, X] = false := by simp [descends, hxX]
      have h2 : descends [t, X] (t :: [x]) = false := by
        simp [descends, Ne.symm hxX]
      rw [lookup_removeAt_out _ _ _ h1 h2]
      exact hX
    | cons y ys =>
      by_cases hx : x = X
      · subst hx
        rw [show (t :: x :: y :: ys) = [t, x] ++ (y :: ys) from rfl,
          removeAt_beyond_file [t, x] fs c (y :: ys) hX (by simp)]
        exact hX
      · have h1 : descends (t :: x :: y :: ys) [t, X] = false := by
          simp [descends]
        have h2 : descends [t, X] (t :: x :: y :: ys) = false := by
          simp [descends, Ne.symm hx]
        rw [lookup_removeAt_out _ _ _ h1 h2]
        exact hX

theorem findEntry_moveIn_ne {b A : String} (stg : FS) (n : Node) (h : A ≠ b) :
    findEntry (moveIn stg b n) A = findEntry stg A := by
  rw [moveIn]
  cases hfe : findEntry stg b with
  | none => exact findEntry_upsert_ne stg n h
  | some nd =>
    cases nd with
    | file c => exact findEntry_upsert_ne stg n h
    | dir sub => exact findEntry_upsert_ne stg _ h

/-- The preserve loop leaves a file of the target directory alone when no
listed entry has its name as base name. -/
theorem stage_preserves_file (t X c : String) :
    ∀ (pres : List (List String)) (fs stg : FS),
    (∀ p ∈ pres, p ≠ [] ∧ baseName p ≠ X) →
    lookupE fs [t, X] = some (Node.file c) →
    lookupE (stageLoop t fs pres stg).1 [t, X] = some (Node.file c) := by
  intro pres
  induction pres with
  | nil => intro fs stg _ hX; exact hX
  | cons item rest ih =>
    intro fs stg h hX
    rw [stageLoop]
    cases hl : lookupE fs (t :: item) with
    | none => exact ih _ _ (fun p hp => h p (by simp [hp])) hX
    | some n =>
      exact ih _ _ (fun p hp => h p (by simp [hp]))
        (removeAt_preserves_file hX item (h item (by simp)).1 (h item (by simp)).2)

/-- Once an item is staged under a name, the rest of the preserve loop does
not displace it (given that no later base name collides and the item is
gone from the tree). -/
theorem stage_stg_keeps (t A : String) (v : Node) :
    ∀ (pres : List (List String)) (fs stg : FS),
    (∀ p ∈ pres, p ≠ [A] → baseName p ≠ A) →
    lookupE fs [t, A] = none → findEntry stg A = some v →
    findEntry (stageLoop t fs pres stg).2 A = some v := by
  intro pres
  induction pres with
  | nil => intro fs stg _ _ hstg; exact hstg
  | cons p rest ih =>
    intro fs stg h hfs hstg
    rw [stageLoop]
    by_cases hp : p = [A]
    · subst hp
      rw [hfs]
      exact ih _ _ (fun q hq hqA => h q (by simp [hq]) hqA) hfs hstg
    · have hb : baseName p ≠ A := h p (by simp) hp
      cases hl : lookupE fs (t :: p) with
      | none => exact ih _ _ (fun q hq hqA => h q (by simp [hq]) hqA) hfs hstg
      | some n =>
        apply ih _ _ (fun q hq hqA => h q (by simp [hq]) hqA)
        · exact lookup_removeAt_none (t :: p) [t, A] fs hfs
        · rw [findEntry_moveIn_ne stg n (Ne.symm hb)]
          exact hstg

/-- The preserve loop stages the file listed as A under the name A with its
original content. -/
theorem stage_stages (t A c : String) :
    ∀ (pres : List (List String)) (fs stg : FS),
    [A] ∈ pres → (∀ p ∈ pres, p ≠ []) →
    (∀ p ∈ pres, p ≠ [A] → baseName p ≠ A) →
    lookupE fs [t, A] = some (Node.file c) → findEntry stg A = none →
    findEntry (stageLoop t fs pres stg).2 A = some (Node.file c) := by
  intro pres
  induction pres with
  | nil => intro fs stg hmem _ _ _ _; simp at hmem
  | cons p rest ih =>
    intro fs stg hmem hnil h hA hstg
    rw [stageLoop]
    by_cases hp : p = [A]
    · subst hp
      rw [hA]
      rw [show baseName [A] = A from rfl]
      apply stage_stg_keeps t A (Node.file c) rest _ _
        (fun q hq hqA => h q (by simp [hq]) hqA)
      · exact lookup_removeAt_self [t, A] fs
      · rw [moveIn, hstg]
        exact findEntry_upsert_self stg A (Node.file c)
    · have hb : baseName p ≠ A := h p (by simp) hp
      have hmem' : [A] ∈ rest := by
        rcases List.mem_cons.mp hmem with h1 | h1
        · exact absurd h1.symm hp
        · exact h1
      cases hl : lookupE fs (t :: p) with
      | none =>
        exact ih _ _ hmem' (fun q hq => hnil q (by simp [hq]))
          (fun q hq hqA => h q (by simp [hq]) hqA) hA hstg
      | some n =>
        apply ih _ _ hmem' (fun q hq => hnil q (by simp [hq]))
          (fun q hq hqA => h q (by simp [hq]) hqA)
        · exact removeAt_preserves_file hA p (hnil p (by simp)) hb
        · rw [findEntry_moveIn_ne stg n (Ne.symm hb)]
          exact hstg

theorem mem_keys_upsertE {es : FS} {k m : String} (n : Node)
    (h : m ∈ (upsertE es k n).map Prod.fst) : m = k ∨ m ∈ es.map Prod.fst := by
  rw [keys_upsertE] at h
  by_cases hk : k ∈ es.map Prod.fst
  · rw [if_pos hk] at h
    exact Or.inr h
  · rw [if_neg hk] at h
    rcases List.mem_append.mp h with h1 | h1
    · exact Or.inr h1
    · exact Or.inl (List.mem_singleton.mp h1)

theorem mem_keys_moveIn {stg : FS} {b m : String} (n : Node)
    (h : m ∈ (moveIn stg b n).map Prod.fst) : m = b ∨ m ∈ stg.map Prod.fst := by
  rw [moveIn] at h
  cases hfe : findEntry stg b <;> rw [hfe] at h
  case none => exact mem_keys_upsertE n h
  case some nd =>
    cases nd with
    | file c => exact mem_keys_upsertE n h
    | dir sub => exact mem_keys_upsertE _ h

/-- Every name in the staging area is the base name of some listed entry. -/
theorem stage_keys_ne (t B : String) : ∀ (pres : List (List String)) (fs stg : FS),
    (∀ m ∈ stg.map Prod.fst, m ≠ B) → (∀ p ∈ pres, baseName p ≠ B) →
    ∀ m ∈ ((stageLoop t fs pres stg).2).map Prod.fst, m ≠ B := by
  intro pres
  induction pres with
  | nil => intro fs stg hstg _; exact hstg
  | cons p rest ih =>
    intro fs stg hstg h
    rw [stageLoop]
    cases hl : lookupE fs (t :: p) with
    | none => exact ih _ _ hstg (fun q hq => h q (by simp [hq]))
    | some n =>
      apply ih _ _ ?_ (fun q hq => h q (by simp [hq]))
      intro m hm
      rcases mem_keys_moveIn n hm with rfl | hm2
      · exact h p (by simp)
      · exact hstg m hm2

/-- Claim C3 counterexample: file A is absent from the target before the
run and A is in the preserve list; the archive contains a file at the path
of A; after the run A holds the archive version instead of being absent
(nothing was staged for A, so nothing shadows the extracted file). -/
theorem claim_c3_cex :
    lookupE [("t", Node.dir [("B", Node.file "oldB")])] ["t", "A"] = none ∧
    lookupE (download_and_extract allOk "z.zip" "t" [["A"]]
        (some [(["A"], "newA")])
        [("t", Node.dir [("B", Node.file "oldB")])]).fs ["t", "A"]
      = some (Node.file "newA") := by
  constructor <;> rfl

/-- Claim C3 (amended): when A exists as a file of the target directory
before the run, its content is unchanged afterwards even if the archive
contains a file at the path of A, and B is fully overwritten by the
archive version at path B; when A was absent before the run, nothing is
staged or restored for A, so an archive file at the path of A remains (A
is then present, not absent). The hypotheses pin the usual shape of the
data: distinct names, A listed as a plain entry, no other preserve entry
with base name A or B, and no archive member path overlapping the path of
B other than at B itself. -/
theorem claim_c3_amended (f t A B aC bC cB : String)
    (preserve : List (List String)) (arch : List (List String × String))
    (fs0 : FS)
    (hft : f ≠ t)
    (hA0 : lookupE fs0 [t, A] = some (Node.file aC))
    (_hB0 : lookupE fs0 [t, B] = some (Node.file bC))
    (hmem : [A] ∈ preserve)
    (hnil : ∀ p ∈ preserve, p ≠ [])
    (hbA : ∀ p ∈ preserve, p ≠ [A] → baseName p ≠ A)
    (hbB : ∀ p ∈ preserve, baseName p ≠ B)
    (hlast : archLast arch [B] = some cB)
    (harch : ∀ m ∈ arch, m.1 = [B]
      ∨ (descends [B] m.1 = false ∧ descends m.1 [B] = false)) :
    lookupE (download_and_extract allOk f t preserve (some arch) fs0).fs [t, A]
      = some (Node.file aC)
    ∧ lookupE (download_and_extract allOk f t preserve (some arch) fs0).fs [t, B]
      = some (Node.file cB) := by
  have hpe : preserve.isEmpty = false := by
    cases preserve
    · simp at hmem
    · rfl
  have hens : ensureTarget fs0 t = fs0 :=
    ensureTarget_of_exists (X := [A]) (by simp) hA0
  simp only [download_and_extract, hens, hpe, Bool.false_eq_true, if_false]
  constructor
  · apply restore_lands
    · exact stage_keys_nodup t preserve fs0 [] (by simp)
    · exact stage_stages t A aC preserve fs0 [] hmem hnil hbA hA0 rfl
  · rw [restoreAll_preserves t B _ _
      (fun pr hpr => stage_keys_ne t B preserve fs0 [] (by simp) hbB pr.1
        (List.mem_map.mpr ⟨pr, hpr, rfl⟩)),
      lookup_cleanup_other _ hft [B],
      extract_lookup t [B] (by simp) arch _ harch, hlast]

/-- Claim C3 (amended), witness at a concrete run: keep.ini is preserved
across an archive that also ships keep.ini, and app.bin is overwritten. -/
theorem claim_c3_witness :
    lookupE (download_and_extract allOk "z.zip" "t" [["keep.ini"]]
        (some [(["keep.ini"], "fresh"), (["app.bin"], "new")])
        [("t", Node.dir [("keep.ini", Node.file "old"),
          ("app.bin", Node.file "prev")])]).fs ["t", "keep.ini"]
      = some (Node.file "old")
    ∧ lookupE (download_and_extract allOk "z.zip" "t" [["keep.ini"]]
        (some [(["keep.ini"], "fresh"), (["app.bin"], "new")])
        [("t", Node.dir [("keep.ini", Node.file "old"),
          ("app.bin", Node.file "prev")])]).fs ["t", "app.bin"]
      = some (Node.file "new") :=
  claim_c3_amended "z.zip" "t" "keep.ini" "app.bin" "old" "prev" "new"
    [["keep.ini"]] [(["keep.ini"], "fresh"), (["app.bin"], "new")]
    [("t", Node.dir [("keep.ini", Node.file "old"),
      ("app.bin", Node.file "prev")])]
    (by decide) rfl rfl (by decide) (by decide) (by decide) (by decide) rfl
    (by intro m hm
        rcases List.mem_cons.mp hm with rfl | hm2
        · right
          constructor <;> decide
        · rcases List.mem_cons.mp hm2 with rfl | hm3
          · left; rfl
          · simp at hm3)

/-- A single-item restoration of a file cannot make a missing nested path
reappear. -/
theorem restore_file_keeps_none (t b c : String) (p : List String)
    (hp2 : 2 ≤ p.length) (fs : FS) (h : lookupE fs (t :: p) = none) :
    lookupE (restoreAll allOk t [(b, Node.file c)] fs) (t :: p) = none := by
  rw [restoreAll_cons]
  rw [show restoreAll allOk t []
      (setAtE (restoreDest allOk fs t b) [t, b] (Node.file c))
      = setAtE (restoreDest allOk fs t b) [t, b] (Node.file c) from rfl]
  have h5 : lookupE (restoreDest allOk fs t b) (t :: p) = none := by
    rw [restoreDest]
    by_cases hd : (lookupE fs [t, b]).isSome
    · rw [if_pos hd,
        show pyTry (removeDestE allOk fs t b) fs = removeAtE fs [t, b] from rfl]
      exact lookup_removeAt_none [t, b] (t :: p) fs h
    · rw [if_neg hd]
      exact h
  rcases p with _ | ⟨p1, pr⟩
  · simp at hp2
  · rcases pr with _ | ⟨p2, pr2⟩
    · simp at hp2
    · by_cases hb : b = p1
      · subst hb
        apply lookup_setAt_under
        · rw [descends_cons_same]
          simp [descends]
        · intro hc
          have hlc := congrArg List.length hc
          simp at hlc
        · simp
      · have d1 : descends [t, b] (t :: p1 :: p2 :: pr2) = false := by
          rw [descends_cons_same]
          simp [descends, hb]
        have d2 : descends (t :: p1 :: p2 :: pr2) [t, b] = false := by
          rw [descends_cons_same]
          simp [descends]
        rw [lookup_setAt_out [t, b] _ _ _ d1 d2]
        exact h5

/-- Claim C10: a preserve-list entry that is a nested relative path is
staged under its base name, and restored to the top level of the target
directory under that base name rather than to its original relative path
(which stays empty when the archive does not recreate it); and two
preserve entries sharing a base name collide in the staging area: only
the later one survives there. -/
theorem claim_c10 :
    (∀ (f t : String) (p : List String) (c : String)
        (arch : List (List String × String)) (fs0 : FS),
      f ≠ t → 2 ≤ p.length →
      lookupE fs0 (t :: p) = some (Node.file c) →
      (∀ m ∈ arch, descends p m.1 = false) →
      (stageLoop t fs0 [p] []).2 = [(baseName p, Node.file c)]
      ∧ lookupE (download_and_extract allOk f t [p] (some arch) fs0).fs
          [t, baseName p] = some (Node.file c)
      ∧ lookupE (download_and_extract allOk f t [p] (some arch) fs0).fs
          (t :: p) = none)
    ∧ (∀ (t a b x c₁ c₂ : String) (fs : FS), a ≠ b →
      lookupE fs [t, a, x] = some (Node.file c₁) →
      lookupE fs [t, b, x] = some (Node.file c₂) →
      (stageLoop t fs [[a, x], [b, x]] []).2 = [(x, Node.file c₂)]) := by
  constructor
  · intro f t p c arch fs0 hft hlen hp0 harch
    have hpne : p ≠ [] := by
      intro h
      subst h
      simp at hlen
    have hens : ensureTarget fs0 t = fs0 := ensureTarget_of_exists hpne hp0
    have hstage : stageLoop t fs0 [p] []
        = (removeAtE fs0 (t :: p), [(baseName p, Node.file c)]) := by
      rw [stageLoop, hp0]
      rfl
    refine ⟨by rw [hstage], ?_, ?_⟩
    · simp only [download_and_extract, hens, List.isEmpty_cons,
        Bool.false_eq_true, if_false, hstage]
      apply restore_lands
      · simp
      · simp [findEntry]
    · simp only [download_and_extract, hens, List.isEmpty_cons,
        Bool.false_eq_true, if_false, hstage]
      have h1 : lookupE (removeAtE fs0 (t :: p)) (t :: p) = none :=
        lookup_removeAt_self _ _
      have h2 : lookupE (upsertE (removeAtE fs0 (t :: p)) f
          (Node.file "archive-bytes")) (t :: p) = none := by
        rw [lookup_upsert_root_ne _ _ hft]
        exact h1
      have h3 : lookupE (extractAll (upsertE (removeAtE fs0 (t :: p)) f
          (Node.file "archive-bytes")) t arch) (t :: p) = none :=
        extract_none t p hpne arch _ harch h2
      apply restore_file_keeps_none t (baseName p) c p hlen
      rw [lookup_cleanup_other _ hft p]
      exact h3
  · intro t a b x c₁ c₂ fs hab h1 h2
    have h2' : lookupE (removeAtE fs (t :: [a, x])) (t :: [b, x])
        = some (Node.file c₂) := by
      have d1 : descends (t :: [a, x]) (t :: [b, x]) = false := by
        simp [descends, hab]
      have d2 : descends (t :: [b, x]) (t :: [a, x]) = false := by
        simp [descends, Ne.symm hab]
      rw [lookup_removeAt_out _ _ _ d1 d2]
      exact h2
    rw [stageLoop, h1]
    show (stageLoop t (removeAtE fs [t, a, x]) [[b, x]]
        (moveIn [] (baseName [a, x]) (Node.file c₁))).2 = [(x, Node.file c₂)]
    rw [stageLoop, h2']
    show moveIn (moveIn [] (baseName [a, x]) (Node.file c₁)) (baseName [b, x])
        (Node.file c₂) = [(x, Node.file c₂)]
    show moveIn [(x, Node.file c₁)] x (Node.file c₂) = [(x, Node.file c₂)]
    rw [moveIn,
      show findEntry [(x, Node.file c₁)] x = some (Node.file c₁) from by
        simp [findEntry]]
    show upsertE [(x, Node.file c₁)] x (Node.file c₂) = [(x, Node.file c₂)]
    simp [upsertE]

/-- Claim C10, witness: a nested entry d/x is staged as x and restored to
the top level, and two entries a/x and b/x collide in staging. -/
theorem claim_c10_witness :
    ((stageLoop "t" [("t", Node.dir [("d", Node.dir [("x", Node.file "keep")])])]
        [["d", "x"]] []).2 = [("x", Node.file "keep")]
      ∧ lookupE (download_and_extract allOk "z" "t" [["d", "x"]]
          (some [(["other"], "o")])
          [("t", Node.dir [("d", Node.dir [("x", Node.file "keep")])])]).fs
          ["t", "x"] = some (Node.file "keep")
      ∧ lookupE (download_and_extract allOk "z" "t" [["d", "x"]]
          (some [(["other"], "o")])
          [("t", Node.dir [("d", Node.dir [("x", Node.file "keep")])])]).fs
          ["t", "d", "x"] = none)
    ∧ (stageLoop "t" [("t", Node.dir [("a", Node.dir [("x", Node.file "one")]),
        ("b", Node.dir [("x", Node.file "two")])])] [["a", "x"], ["b", "x"]] []).2
        = [("x", Node.file "two")] :=
  ⟨claim_c10.1 "z" "t" ["d", "x"] "keep" [(["other"], "o")]
      [("t", Node.dir [("d", Node.dir [("x", Node.file "keep")])])]
      (by decide) (by decide) rfl (by decide),
   claim_c10.2 "t" "a" "b" "x" "one" "two"
      [("t", Node.dir [("a", Node.dir [("x", Node.file "one")]),
        ("b", Node.dir [("x", Node.file "two")])])] (by decide) rfl rfl⟩

/-! The Packaging Utility (src/zip.py). -/

/-- os.walk in top-down order: the files of the current directory in
listing order. -/
def walkFilesLevel : FS → List (List String × String)
  | [] => []
  | (nm, Node.file c) :: rest => ([nm], c) :: walkFilesLevel rest
  | (_, Node.dir _) :: rest => walkFilesLevel rest

/-- os.walk in top-down order: the recursion into the subdirectories in
listing order, after the files of the current directory. -/
def walkDirs : FS → List (List String × String)
  | [] => []
  | (_, Node.file _) :: rest => walkDirs rest
  | (nm, Node.dir sub) :: rest =>
    ((walkFilesLevel sub ++ walkDirs sub).map (fun pr => (nm :: pr.1, pr.2)))
      ++ walkDirs rest

/-- Every file below a directory with its relative path, in os.walk
top-down order (src/zip.py lines 48-52 and 69-73). -/
def walkEntries (es : FS) : List (List String × String) :=
  walkFilesLevel es ++ walkDirs es

/-- Split a configured relative path on the separator. -/
def splitPath (s : String) : List String := s.splitOn "/"

/-- create_zip_archive (src/zip.py lines 29-82): none when the project
directory does not exist (the skip-with-warning branch), otherwise the
member list of the archive written: the whole tree when the files list is
empty or exactly the dot entry; otherwise each listed item in order, a
file flattened to its base name, a directory walked recursively with
project-relative paths, and missing items skipped with a message. The
zip filename and project name arguments only feed the messages and the
output path. -/
def create_zip_archive (zipFilename projectName : String)
    (projectTree : Option FS) (filesToInclude : List String) :
    Option (List (List String × String)) :=
  match projectTree with
  | none => none
  | some tr =>
    if filesToInclude.isEmpty || filesToInclude == ["."] then
      some (walkEntries tr)
    else
      some (filesToInclude.foldl (fun acc item =>
        let ip := splitPath item
        match lookupE tr ip with
        | some (Node.file c) => acc ++ [([baseName ip], c)]
        | some (Node.dir sub) =>
          acc ++ (walkEntries sub).map (fun pr => (ip ++ pr.1, pr.2))
        | none => acc) [])

/-- One project of zip_config.json as read by zip.py __main__. -/
structure ProjConfig where
  zipFilename : Option String
  files : Option (List String)
  path : Option String
  dir : Option String

/-- Outcome of one configured project in a Packaging Utility run:
archive written, skip reported for a missing source directory, or a
missing-required-keys configuration error reported. -/
inductive POutcome where
  | archived (members : List (List String × String))
  | skippedMissingDir
  | configError

/-- The per-project loop of zip.py __main__ (lines 105-117): the source
directory is the path key, else the dir key, else the project name; env
maps a source directory to its tree when it exists. -/
def processProjects (env : String → Option FS)
    (config : List (String × ProjConfig)) : List (String × POutcome) :=
  config.map (fun pr =>
    match pr.2.zipFilename, pr.2.files with
    | some zf, some fl =>
      (pr.1,
        match create_zip_archive zf pr.1
            (env (pr.2.path.getD (pr.2.dir.getD pr.1))) fl with
        | some members => POutcome.archived members
        | none => POutcome.skippedMissingDir)
    | _, _ => (pr.1, POutcome.configError))

/-- Claim C8: for the same source tree, the files value consisting of the
single dot entry and the empty files value produce archives with identical
membership, namely every file under the source directory with its path
relative to the source directory (the full recursive walk). -/
theorem claim_c8 (zf pn : String) (tr : FS) :
    create_zip_archive zf pn (some tr) ["."]
      = create_zip_archive zf pn (some tr) []
    ∧ create_zip_archive zf pn (some tr) [] = some (walkEntries tr) := by
  constructor <;> rfl

/-- Claim C9: a configured project whose source directory does not exist
is reported as skipped and yields no archive, while every other project of
the same configuration is processed exactly as it would be without it: the
run completes over the whole configuration. -/
theorem claim_c9 (env : String → Option FS)
    (pre post : List (String × ProjConfig)) (name zf : String)
    (d : ProjConfig) (fl : List String)
    (hzf : d.zipFilename = some zf) (hfl : d.files = some fl)
    (henv : env (d.path.getD (d.dir.getD name)) = none) :
    processProjects env (pre ++ (name, d) :: post)
      = processProjects env pre
          ++ (name, POutcome.skippedMissingDir) :: processProjects env post := by
  simp only [processProjects, List.map_append, List.map_cons, hzf, hfl, henv,
    create_zip_archive]

/-- Claim C9, witness: a two-project configuration in which the second
project's source directory is missing; the first is archived, the second
skipped. -/
theorem claim_c9_witness :
    processProjects
        (fun s => if s = "gooddir" then some [("m.py", Node.file "src")] else none)
        ([("gooddir", ⟨some "g.zip", some [], none, none⟩)]
          ++ ("bad", (⟨some "b.zip", some [], none, none⟩ : ProjConfig)) :: [])
      = processProjects
          (fun s => if s = "gooddir" then some [("m.py", Node.file "src")] else none)
          [("gooddir", ⟨some "g.zip", some [], none, none⟩)]
        ++ ("bad", POutcome.skippedMissingDir)
          :: processProjects
            (fun s => if s = "gooddir" then some [("m.py", Node.file "src")] else none)
            [] :=
  claim_c9
    (fun s => if s = "gooddir" then some [("m.py", Node.file "src")] else none)
    [("gooddir", ⟨some "g.zip", some [], none, none⟩)] []
    "bad" "b.zip" ⟨some "b.zip", some [], none, none⟩ [] rfl rfl (by rfl)

end AggiornaDj
